import Mathlib

/-!
# Verification of the Prive core: provider registry and stream aggregator

Shallow embedding of `@lai/core`:
* `src/providers/streaming.ts` — `StreamManager.handleStream` and
  `StreamManager.bufferStream`;
* `src/providers/registry.ts` — `ProviderRegistry` over a JS `Map`;
* `src/providers/capabilities.ts` — the static `PROVIDER_CAPABILITIES` table.

JS exceptions are modelled with `Except`; a thrown value is either an `Error`
instance or an arbitrary non-`Error` value (`Thrown`), matching the
normalization `error instanceof Error ? error : new Error(String(error))`.
An async generator of strings is modelled as the list of fragments it emits
followed by an optional failure raised after the last emitted fragment.
-/

set_option maxHeartbeats 1000000

namespace Prive

/-- A JS `Error` object, reduced to its message. -/
structure Err where
  message : String
deriving DecidableEq, Repr

/-- A JS thrown value: either an `Error` instance or some other value
(kept as its string rendering, which is all `new Error(String(error))` uses). -/
inductive Thrown where
  | err (e : Err)
  | other (s : String)
deriving DecidableEq, Repr

deriving instance DecidableEq for Except

/-- `error instanceof Error ? error : new Error(String(error))`
(streaming.ts line 35). -/
def normalize : Thrown → Err
  | .err e => e
  | .other s => ⟨s⟩

/-- The `StreamCallbacks` options bag (streaming.ts lines 3–7).  Each callback,
when invoked, either returns normally or throws. -/
structure StreamCallbacks where
  onChunk : Option (String → Except Thrown Unit)
  onComplete : Option (String → Except Thrown Unit)
  onError : Option (Err → Except Thrown Unit)

/-- An `AsyncGenerator<string>`: the fragments it emits, in order, followed by
an optional failure it raises when the consumer asks for the next fragment. -/
structure FragmentSource where
  chunks : List String
  fail : Option Thrown

/-- Observable record of a `handleStream` run: the arguments of every
`onChunk`, `onComplete` and `onError` invocation, and the number of
`console.warn` calls. -/
structure Trace where
  chunkCalls : List String
  warnCount : Nat
  completeCalls : List String
  errorCalls : List Err
deriving DecidableEq, Repr

/-- Concatenation of a fragment list in arrival order. -/
def concatAll (l : List String) : String := l.foldr (· ++ ·) ""

/-- The `for await` loop of `handleStream` (streaming.ts lines 20–30):
each fragment is appended to the accumulator, then fed to `onChunk` when
present; a throw from `onChunk` is caught and counted as one `console.warn`.
Returns the accumulator, the `onChunk` arguments, and the warning count. -/
def processChunks (cb : StreamCallbacks) : List String → String → String × List String × Nat
  | [], acc => (acc, [], 0)
  | c :: rest, acc =>
    let warn : Nat :=
      match cb.onChunk with
      | none => 0
      | some f =>
        match f c with
        | .ok _ => 0
        | .error _ => 1
    let calls : List String :=
      match cb.onChunk with
      | none => []
      | some _ => [c]
    let r := processChunks cb rest (acc ++ c)
    (r.1, calls ++ r.2.1, warn + r.2.2)

/-- The `catch` block of `handleStream` (streaming.ts lines 34–38): normalize
the thrown value, invoke `onError` when present, and re-throw the normalized
error — unless `onError` itself throws, in which case that throw propagates
instead (`throw err` on line 37 is never reached). Returns the operation's
outcome and the `onError` invocation arguments. -/
def runCatch (cb : StreamCallbacks) (t : Thrown) : Except Thrown String × List Err :=
  let e := normalize t
  match cb.onError with
  | none => (.error (.err e), [])
  | some f =>
    match f e with
    | .ok _ => (.error (.err e), [e])
    | .error t2 => (.error t2, [e])

/-- The tail of `handleStream` after the loop (streaming.ts lines 32–38):
on normal exhaustion invoke `onComplete` with the accumulator and return it;
`onComplete` sits inside the `try`, so its throw lands in the `catch` block.
A source failure goes straight to the `catch` block. Returns the outcome,
the `onComplete` arguments and the `onError` arguments. -/
def finishStream (cb : StreamCallbacks) (fail : Option Thrown) (full : String) :
    Except Thrown String × List String × List Err :=
  match fail with
  | some t =>
    let r := runCatch cb t
    (r.1, [], r.2)
  | none =>
    match cb.onComplete with
    | none => (.ok full, [], [])
    | some f =>
      match f full with
      | .ok _ => (.ok full, [full], [])
      | .error t =>
        let r := runCatch cb t
        (r.1, [full], r.2)

/-- `StreamManager.handleStream` (streaming.ts lines 13–39): drain the
fragment source, then finish per the source's termination mode.  Produces
the operation's outcome together with the observer-invocation trace. -/
def handleStream (src : FragmentSource) (cb : StreamCallbacks) : Except Thrown String × Trace :=
  let p := processChunks cb src.chunks ""
  let fin := finishStream cb src.fail p.1
  (fin.1, ⟨p.2.1, p.2.2, fin.2.1, fin.2.2⟩)

/-- The loop of `StreamManager.bufferStream` (streaming.ts lines 55–69):
append each fragment to the buffer, emit and reset the buffer whenever its
length reaches `bufferSize`, and after the source is exhausted emit the
remaining buffer when it is non-empty (`if (buffer)` — the empty string is
falsy).  `bufferSize` is a JS number and may be non-positive. -/
def bufLoop (bufferSize : Int) : List String → String → List String
  | [], buffer => if buffer = "" then [] else [buffer]
  | c :: rest, buffer =>
    let b := buffer ++ c
    if (b.length : Int) ≥ bufferSize then b :: bufLoop bufferSize rest ""
    else bufLoop bufferSize rest b

/-- `StreamManager.bufferStream` (streaming.ts lines 51–70); the source's
default for `bufferSize` is 10. -/
def bufferStream (src : List String) (bufferSize : Int) : List String :=
  bufLoop bufferSize src ""

/- ## Provider registry (registry.ts) -/

/-- A provider instance (base.ts): its identifier tag, current model, and the
outcome its `validateConfig()` call would produce (`.ok b` for a resolved
boolean, `.error t` for a rejection). -/
structure Provider where
  type : String
  currentModel : String
  validateConfig : Except Thrown Bool
deriving DecidableEq, Repr

/-- `Map.set` on an insertion-ordered string-keyed map: replace in place when
the key is present, append otherwise. -/
def mapSet {α : Type} : List (String × α) → String → α → List (String × α)
  | [], k, v => [(k, v)]
  | e :: rest, k, v => if e.1 = k then (k, v) :: rest else e :: mapSet rest k v

/-- `Map.get`: the value stored under the key, or `none`. -/
def mapGet {α : Type} : List (String × α) → String → Option α
  | [], _ => none
  | e :: rest, k => if e.1 = k then some e.2 else mapGet rest k

/-- `Map.has`. -/
def mapHas {α : Type} : List (String × α) → String → Bool
  | [], _ => false
  | e :: rest, k => if e.1 = k then true else mapHas rest k

/-- The registry's backing store `Map<string, Provider>` in insertion order. -/
abbrev Registry := List (String × Provider)

/-- `ProviderRegistry.register` (registry.ts lines 19–21):
`providers.set(provider.type, provider)`. -/
def ProviderRegistry.register (r : Registry) (p : Provider) : Registry :=
  mapSet r p.type p

/-- `ProviderRegistry.get` (registry.ts lines 26–28). -/
def ProviderRegistry.get (r : Registry) (t : String) : Option Provider :=
  mapGet r t

/-- `ProviderRegistry.has` (registry.ts lines 33–35). -/
def ProviderRegistry.has (r : Registry) (t : String) : Bool :=
  mapHas r t

/-- `ProviderRegistry.list` (registry.ts lines 40–42): the keys in insertion
order. -/
def ProviderRegistry.list (r : Registry) : List String :=
  r.map Prod.fst

/-- `ProviderRegistry.getAll` (registry.ts lines 47–49): the values in
insertion order. -/
def ProviderRegistry.getAll (r : Registry) : List Provider :=
  r.map Prod.snd

/-- What a vendor constructor would build for one identifier in a given
environment. -/
structure ProviderSpec where
  currentModel : String
  validateConfig : Except Thrown Bool
deriving DecidableEq, Repr

/-- An environment: for each provider identifier, `some spec` when that
vendor's constructor succeeds and `none` when it throws. -/
def Env : Type := String → Option ProviderSpec

/-- Modelled from the spec: the four vendor constructors (`OpenAIProvider`,
`AnthropicProvider`, `GeminiProvider`, `OllamaProvider`) are imported by
registry.ts but their sources are not in the repository snapshot.  Per the
spec (§4.1, §6), each constructor reads environment-derived configuration and
either yields an instance bound to its own identifier or raises (e.g. a
missing required credential); `none` models a constructor that raises. -/
def construct (env : Env) (id : String) : Option Provider :=
  (env id).map (fun s => ⟨id, s.currentModel, s.validateConfig⟩)

/-- The closed set of known provider identifiers, in the order
`createDefault` attempts them (registry.ts lines 62–84). -/
def knownIds : List String := ["openai", "anthropic", "gemini", "ollama"]

/-- `ProviderRegistry.createDefault` (registry.ts lines 56–87): attempt each
known provider in turn inside its own `try`; a constructor that throws is
skipped and the loop moves on to the next identifier. -/
def createDefault (env : Env) : Registry :=
  knownIds.foldl
    (fun r id =>
      match construct env id with
      | some p => ProviderRegistry.register r p
      | none => r)
    []

/-- `ProviderRegistry.detectAvailable` (registry.ts lines 92–108): build the
default registry, then keep each provider whose `validateConfig()` resolves
to `true`; a `false` result or a rejection excludes it without propagating. -/
def detectAvailable (env : Env) : List String :=
  (ProviderRegistry.getAll (createDefault env)).foldl
    (fun acc p =>
      match p.validateConfig with
      | .ok true => acc ++ [p.type]
      | _ => acc)
    []

/- ## Capability table (capabilities.ts) -/

/-- The optional fine-grained feature flags sub-record. -/
structure Features where
  functionCalling : Option Bool
  jsonMode : Option Bool
  toolUse : Option Bool
deriving DecidableEq, Repr

/-- `ProviderCapabilities` (capabilities.ts lines 51–76). -/
structure ProviderCapabilities where
  supportsStreaming : Bool
  supportsEmbeddings : Bool
  supportsVision : Bool
  requiresApiKey : Bool
  maxContextLength : Nat
  supportedFileTypes : Option (List String)
  features : Option Features
deriving DecidableEq, Repr

/-- `DEFAULT_CAPABILITIES` (capabilities.ts lines 78–84). -/
def DEFAULT_CAPABILITIES : ProviderCapabilities :=
  ⟨true, false, false, true, 4096, none, none⟩

/-- `PROVIDER_CAPABILITIES` (capabilities.ts lines 89–133), as the
string-keyed record it is in the source. -/
def PROVIDER_CAPABILITIES : List (String × ProviderCapabilities) :=
  [("openai", ⟨true, true, true, true, 128000, none,
      some ⟨some true, some true, some true⟩⟩),
   ("anthropic", ⟨true, false, true, true, 200000, none,
      some ⟨some true, none, some true⟩⟩),
   ("gemini", ⟨true, false, true, true, 1000000, none,
      some ⟨some true, none, none⟩⟩),
   ("ollama", ⟨true, true, false, false, 4096, none, none⟩)]

/-- Reading `PROVIDER_CAPABILITIES[id]`: `some` for a present key, `none`
(JS `undefined`) otherwise. -/
def capabilityLookup (id : String) : Option ProviderCapabilities :=
  mapGet PROVIDER_CAPABILITIES id

/- ## Stream aggregator lemmas -/

theorem concatAll_cons (c : String) (l : List String) :
    concatAll (c :: l) = c ++ concatAll l := rfl

/-- The loop accumulates every fragment in order, whatever the observers do. -/
theorem processChunks_fst (cb : StreamCallbacks) (chunks : List String) (acc : String) :
    (processChunks cb chunks acc).1 = acc ++ concatAll chunks := by
  induction chunks generalizing acc with
  | nil => simp [processChunks, concatAll]
  | cons c rest ih =>
    simp [processChunks, ih (acc ++ c), concatAll_cons, String.append_assoc]

/-- When an `onChunk` observer is supplied it is invoked once per fragment,
in order, even on fragments where it throws. -/
theorem processChunks_calls (cb : StreamCallbacks) (chunks : List String) (acc : String) :
    (processChunks cb chunks acc).2.1 =
      match cb.onChunk with
      | none => []
      | some _ => chunks := by
  induction chunks generalizing acc with
  | nil => cases cb.onChunk <;> simp [processChunks]
  | cons c rest ih =>
    cases h : cb.onChunk <;> simp [processChunks, h, ih (acc ++ c)]

/-- C1: for every fragment source that is exhausted without raising (and whose
on-complete observer, when supplied, returns normally on the accumulated
string), `handleStream` returns the concatenation of the fragments in arrival
order, invokes on-complete exactly once with that same string, and invokes
on-error never; the empty source yields the empty string, with on-complete
still fired once on `""`. -/
theorem handleStream_normal_termination (src : FragmentSource) (cb : StreamCallbacks)
    (hf : src.fail = none)
    (hc : ∀ f, cb.onComplete = some f → f (concatAll src.chunks) = Except.ok ()) :
    (handleStream src cb).1 = Except.ok (concatAll src.chunks) ∧
    (handleStream src cb).2.completeCalls =
      (match cb.onComplete with
       | some _ => [concatAll src.chunks]
       | none => []) ∧
    (handleStream src cb).2.errorCalls = [] := by
  have hfull : (processChunks cb src.chunks "").1 = concatAll src.chunks := by
    rw [processChunks_fst, String.empty_append]
  refine ⟨?_, ?_, ?_⟩
  · show (finishStream cb src.fail (processChunks cb src.chunks "").1).1 = _
    rw [hf, hfull]
    cases hcb : cb.onComplete with
    | none => simp [finishStream, hcb]
    | some f => simp [finishStream, hcb, hc f hcb]
  · show (finishStream cb src.fail (processChunks cb src.chunks "").1).2.1 = _
    rw [hf, hfull]
    cases hcb : cb.onComplete with
    | none => simp [finishStream, hcb]
    | some f => simp [finishStream, hcb, hc f hcb]
  · show (finishStream cb src.fail (processChunks cb src.chunks "").1).2.2 = _
    rw [hf, hfull]
    cases hcb : cb.onComplete with
    | none => simp [finishStream, hcb]
    | some f => simp [finishStream, hcb, hc f hcb]

theorem handleStream_normal_witness :
    (handleStream ⟨["Hello", " ", "world"], none⟩
        ⟨some (fun _ => Except.ok ()), some (fun _ => Except.ok ()), none⟩).1 =
      Except.ok "Hello world" ∧
    (handleStream ⟨["Hello", " ", "world"], none⟩
        ⟨some (fun _ => Except.ok ()), some (fun _ => Except.ok ()), none⟩).2.completeCalls =
      ["Hello world"] ∧
    (handleStream ⟨[], none⟩ ⟨none, some (fun _ => Except.ok ()), none⟩).1 = Except.ok "" ∧
    (handleStream ⟨[], none⟩ ⟨none, some (fun _ => Except.ok ()), none⟩).2.completeCalls =
      [""] := by
  have h1 := handleStream_normal_termination ⟨["Hello", " ", "world"], none⟩
      ⟨some (fun _ => Except.ok ()), some (fun _ => Except.ok ()), none⟩ rfl
      (by intro f hf; cases hf; rfl)
  have h2 := handleStream_normal_termination ⟨[], none⟩
      ⟨none, some (fun _ => Except.ok ()), none⟩ rfl
      (by intro f hf; cases hf; rfl)
  exact ⟨h1.1, h1.2.1, h2.1, h2.2.1⟩

/-- C2: when the source raises after its emitted fragments (and the on-error
observer, when supplied, returns normally), `handleStream` invokes on-error
exactly once with the normalized failure, re-raises that normalized failure to
its caller instead of returning the accumulator, and never invokes
on-complete. -/
theorem handleStream_source_failure (src : FragmentSource) (cb : StreamCallbacks) (t : Thrown)
    (hf : src.fail = some t)
    (he : ∀ f, cb.onError = some f → f (normalize t) = Except.ok ()) :
    (handleStream src cb).1 = Except.error (Thrown.err (normalize t)) ∧
    (handleStream src cb).2.errorCalls =
      (match cb.onError with
       | some _ => [normalize t]
       | none => []) ∧
    (handleStream src cb).2.completeCalls = [] := by
  refine ⟨?_, ?_, ?_⟩
  · show (finishStream cb src.fail (processChunks cb src.chunks "").1).1 = _
    rw [hf]
    cases hcb : cb.onError with
    | none => simp [finishStream, runCatch, hcb]
    | some f => simp [finishStream, runCatch, hcb, he f hcb]
  · show (finishStream cb src.fail (processChunks cb src.chunks "").1).2.2 = _
    rw [hf]
    cases hcb : cb.onError with
    | none => simp [finishStream, runCatch, hcb]
    | some f => simp [finishStream, runCatch, hcb, he f hcb]
  · show (finishStream cb src.fail (processChunks cb src.chunks "").1).2.1 = _
    rw [hf]
    cases hcb : cb.onError with
    | none => simp [finishStream, runCatch, hcb]
    | some f => simp [finishStream, runCatch, hcb, he f hcb]

theorem handleStream_source_failure_witness :
    (handleStream ⟨["chunk1"], some (Thrown.err ⟨"Stream error"⟩)⟩
        ⟨none, some (fun _ => Except.ok ()), some (fun _ => Except.ok ())⟩).1 =
      Except.error (Thrown.err ⟨"Stream error"⟩) ∧
    (handleStream ⟨["chunk1"], some (Thrown.err ⟨"Stream error"⟩)⟩
        ⟨none, some (fun _ => Except.ok ()), some (fun _ => Except.ok ())⟩).2.errorCalls =
      [⟨"Stream error"⟩] ∧
    (handleStream ⟨["chunk1"], some (Thrown.err ⟨"Stream error"⟩)⟩
        ⟨none, some (fun _ => Except.ok ()), some (fun _ => Except.ok ())⟩).2.completeCalls =
      [] := by
  have h := handleStream_source_failure ⟨["chunk1"], some (Thrown.err ⟨"Stream error"⟩)⟩
      ⟨none, some (fun _ => Except.ok ()), some (fun _ => Except.ok ())⟩
      (Thrown.err ⟨"Stream error"⟩) rfl (by intro f hf; cases hf; rfl)
  exact ⟨h.1, h.2.1, h.2.2⟩

/-- C3 counterexample: an on-complete observer that throws is NOT downgraded
to a warning — `handleStream` on `["chunk1"]` with a throwing on-complete
rejects with that failure instead of returning `"chunk1"`, so an observer
failure does propagate to the caller. -/
theorem observer_failure_propagates :
    (handleStream ⟨["chunk1"], none⟩
        ⟨none, some (fun _ => Except.error (Thrown.err ⟨"boom"⟩)), none⟩).1 =
      Except.error (Thrown.err ⟨"boom"⟩) ∧
    (handleStream ⟨["chunk1"], none⟩
        ⟨none, some (fun _ => Except.error (Thrown.err ⟨"boom"⟩)), none⟩).1 ≠
      Except.ok "chunk1" := by
  exact ⟨rfl, by decide⟩

/-- C3 (amended): only the on-fragment observer enjoys the
downgrade-to-warning isolation: the operation's outcome and its
on-complete/on-error invocations are identical whatever the supplied
on-fragment observer does (its failures are caught and never propagated), and
consumption continues through every fragment; an on-complete or on-error
observer that throws, by contrast, propagates a failure to the caller. -/
theorem onChunk_failure_isolated (src : FragmentSource) (cb : StreamCallbacks) :
    (handleStream src cb).1 = (handleStream src ⟨none, cb.onComplete, cb.onError⟩).1 ∧
    (handleStream src cb).2.completeCalls =
      (handleStream src ⟨none, cb.onComplete, cb.onError⟩).2.completeCalls ∧
    (handleStream src cb).2.errorCalls =
      (handleStream src ⟨none, cb.onComplete, cb.onError⟩).2.errorCalls ∧
    (∀ f, cb.onChunk = some f → (handleStream src cb).2.chunkCalls = src.chunks) := by
  have h1 : (processChunks cb src.chunks "").1 =
      (processChunks ⟨none, cb.onComplete, cb.onError⟩ src.chunks "").1 := by
    rw [processChunks_fst, processChunks_fst]
  have hfin : finishStream cb src.fail = finishStream ⟨none, cb.onComplete, cb.onError⟩ src.fail := by
    rfl
  refine ⟨?_, ?_, ?_, ?_⟩
  · show (finishStream cb src.fail (processChunks cb src.chunks "").1).1 = _
    rw [h1, hfin]; rfl
  · show (finishStream cb src.fail (processChunks cb src.chunks "").1).2.1 = _
    rw [h1, hfin]; rfl
  · show (finishStream cb src.fail (processChunks cb src.chunks "").1).2.2 = _
    rw [h1, hfin]; rfl
  · intro f hfc
    show (processChunks cb src.chunks "").2.1 = src.chunks
    rw [processChunks_calls, hfc]

theorem onChunk_failure_isolated_witness :
    (handleStream ⟨["a", "b"], none⟩
        ⟨some (fun _ => Except.error (Thrown.err ⟨"cb"⟩)), none, none⟩).2.chunkCalls =
      ["a", "b"] ∧
    (handleStream ⟨["a", "b"], none⟩
        ⟨some (fun _ => Except.error (Thrown.err ⟨"cb"⟩)), none, none⟩).1 =
      (handleStream ⟨["a", "b"], none⟩ ⟨none, none, none⟩).1 := by
  have h := onChunk_failure_isolated ⟨["a", "b"], none⟩
      ⟨some (fun _ => Except.error (Thrown.err ⟨"cb"⟩)), none, none⟩
  exact ⟨h.2.2.2 _ rfl, h.1⟩

/-- C4: with only an on-fragment observer supplied — throwing on whichever
fragments it likes — draining a non-raising source still consumes every
fragment (the observer sees each of them, in order) and returns the full
in-order concatenation: a faulty on-fragment observer never truncates the
accumulated response or aborts the stream. -/
theorem onChunk_throwing_preserves_result (chunks : List String)
    (f : String → Except Thrown Unit) :
    (handleStream ⟨chunks, none⟩ ⟨some f, none, none⟩).1 = Except.ok (concatAll chunks) ∧
    (handleStream ⟨chunks, none⟩ ⟨some f, none, none⟩).2.chunkCalls = chunks := by
  constructor
  · show (finishStream ⟨some f, none, none⟩ none
        (processChunks ⟨some f, none, none⟩ chunks "").1).1 = _
    rw [processChunks_fst, String.empty_append]
    rfl
  · show (processChunks ⟨some f, none, none⟩ chunks "").2.1 = chunks
    rw [processChunks_calls]

/- ## Buffered re-chunking lemmas -/

/-- The buffered loop never loses or reorders characters: its output
concatenates to the pending buffer followed by the remaining input. -/
theorem bufLoop_join (n : Int) (chunks : List String) (buffer : String) :
    concatAll (bufLoop n chunks buffer) = buffer ++ concatAll chunks := by
  induction chunks generalizing buffer with
  | nil =>
    by_cases h : buffer = "" <;>
      simp [bufLoop, h, concatAll]
  | cons c rest ih =>
    show concatAll
        (if ((buffer ++ c).length : Int) ≥ n then (buffer ++ c) :: bufLoop n rest ""
         else bufLoop n rest (buffer ++ c)) = _
    by_cases h : ((buffer ++ c).length : Int) ≥ n
    · rw [if_pos h, concatAll_cons, ih "", String.empty_append, concatAll_cons,
        String.append_assoc]
    · rw [if_neg h, ih (buffer ++ c), concatAll_cons, String.append_assoc]

/-- While the total pending text stays under the threshold, the loop emits
nothing until exhaustion, and then only the final non-empty buffer. -/
theorem bufLoop_small (n : Int) (chunks : List String) (buffer : String)
    (h : ((buffer ++ concatAll chunks).length : Int) < n) :
    bufLoop n chunks buffer =
      if buffer ++ concatAll chunks = "" then [] else [buffer ++ concatAll chunks] := by
  induction chunks generalizing buffer with
  | nil =>
    show (if buffer = "" then [] else [buffer]) = _
    simp [concatAll, String.append_empty]
  | cons c rest ih =>
    show (if ((buffer ++ c).length : Int) ≥ n then (buffer ++ c) :: bufLoop n rest ""
         else bufLoop n rest (buffer ++ c)) = _
    have hlen : ¬ (((buffer ++ c).length : Int) ≥ n) := by
      rw [concatAll_cons, ← String.append_assoc] at h
      rw [String.length_append] at h ⊢
      rw [String.length_append] at h
      omega
    rw [if_neg hlen]
    have h' : (((buffer ++ c) ++ concatAll rest).length : Int) < n := by
      rw [concatAll_cons, ← String.append_assoc] at h
      exact h
    rw [ih (buffer ++ c) h', concatAll_cons, ← String.append_assoc]

/-- C5 (amended): for every fragment sequence and every threshold, the chunks
emitted by `bufferStream` concatenate (in emission order) to exactly the
concatenation of the input fragments — nothing is dropped, reordered, or
split across a boundary out of order — and when the threshold exceeds the
total input length and that total concatenation is non-empty, exactly one
output chunk is produced, equal to the full concatenation.  (When the total
concatenation is empty, no chunk is emitted at all: `if (buffer)` skips the
final flush for an empty buffer.) -/
theorem bufferStream_rechunk (src : List String) (n : Int) :
    concatAll (bufferStream src n) = concatAll src ∧
    (((concatAll src).length : Int) < n → concatAll src ≠ "" →
      bufferStream src n = [concatAll src]) := by
  constructor
  · rw [bufferStream, bufLoop_join, String.empty_append]
  · intro h hne
    rw [bufferStream, bufLoop_small n src "" (by rwa [String.empty_append])]
    rw [String.empty_append, if_neg hne]

theorem bufferStream_rechunk_witness :
    concatAll (bufferStream ["a", "b", "c", "d", "e", "f", "g", "h", "i", "j"] 5) =
      "abcdefghij" ∧
    bufferStream ["1", "2", "3"] 10 = ["123"] := by
  have h1 := bufferStream_rechunk ["a", "b", "c", "d", "e", "f", "g", "h", "i", "j"] 5
  have h2 := bufferStream_rechunk ["1", "2", "3"] 10
  refine ⟨?_, ?_⟩
  · rw [h1.1]; rfl
  · have h3 := h2.2 (by decide) (by decide)
    rw [h3]; rfl

/-- C5 counterexample: with an empty source sequence and threshold 5 — a
threshold exceeding the total input length of 0 — `bufferStream` emits zero
output chunks, not "exactly one output chunk equal to the full concatenation"
(which would be `[""]`).  Likewise a source of empty fragments. -/
theorem bufferStream_empty_total_cex :
    bufferStream [] 5 = [] ∧ bufferStream [] 5 ≠ [""] ∧
    bufferStream ["", ""] 5 = [] ∧ bufferStream ["", ""] 5 ≠ [""] := by
  decide

/-- C10: for every fragment sequence and every non-positive threshold,
`bufferStream` emits exactly one output chunk per input fragment, equal to
that fragment: the output sequence is the input sequence.  (Any buffer is
flushed immediately because its length is always `≥` a non-positive
threshold.) -/
theorem bufferStream_nonpositive_threshold (src : List String) (n : Int) (h : n ≤ 0) :
    bufferStream src n = src := by
  rw [bufferStream]
  induction src with
  | nil => rfl
  | cons c rest ih =>
    show (if ((("" ++ c)).length : Int) ≥ n then ("" ++ c) :: bufLoop n rest ""
         else bufLoop n rest ("" ++ c)) = c :: rest
    rw [String.empty_append, if_pos (le_trans h (Int.natCast_nonneg c.length)), ih]

theorem bufferStream_nonpositive_witness :
    bufferStream ["ab", "", "c"] 0 = ["ab", "", "c"] ∧
    bufferStream ["x", "y"] (-3) = ["x", "y"] := by
  exact ⟨bufferStream_nonpositive_threshold ["ab", "", "c"] 0 (by decide),
    bufferStream_nonpositive_threshold ["x", "y"] (-3) (by decide)⟩

/- ## Registry map lemmas -/

theorem mapGet_mapSet_self {α : Type} (m : List (String × α)) (k : String) (v : α) :
    mapGet (mapSet m k v) k = some v := by
  induction m with
  | nil => simp [mapSet, mapGet]
  | cons e rest ih =>
    by_cases h : e.1 = k <;> simp [mapSet, mapGet, h, ih]

theorem keys_mapSet_mem {α : Type} (m : List (String × α)) (k : String) (v : α)
    (h : k ∈ m.map Prod.fst) :
    (mapSet m k v).map Prod.fst = m.map Prod.fst := by
  induction m with
  | nil => simp at h
  | cons e rest ih =>
    by_cases he : e.1 = k
    · simp [mapSet, he]
    · have h' : k ∈ rest.map Prod.fst := by
        rcases List.mem_cons.mp h with h0 | h0
        · exact absurd h0.symm he
        · exact h0
      simp [mapSet, he, ih h']

theorem keys_mapSet_not_mem {α : Type} (m : List (String × α)) (k : String) (v : α)
    (h : k ∉ m.map Prod.fst) :
    (mapSet m k v).map Prod.fst = m.map Prod.fst ++ [k] := by
  induction m with
  | nil => simp [mapSet]
  | cons e rest ih =>
    have he : ¬ (e.1 = k) := fun hh => h (by simp [hh])
    have h' : k ∉ rest.map Prod.fst := fun hh => h (by simp [hh])
    simp [mapSet, he, ih h']

theorem mem_keys_mapSet {α : Type} (m : List (String × α)) (k : String) (v : α) :
    k ∈ (mapSet m k v).map Prod.fst := by
  by_cases h : k ∈ m.map Prod.fst
  · rw [keys_mapSet_mem m k v h]; exact h
  · rw [keys_mapSet_not_mem m k v h]; simp

theorem nodup_keys_mapSet {α : Type} (m : List (String × α)) (k : String) (v : α)
    (h : (m.map Prod.fst).Nodup) :
    ((mapSet m k v).map Prod.fst).Nodup := by
  by_cases hk : k ∈ m.map Prod.fst
  · rw [keys_mapSet_mem m k v hk]; exact h
  · rw [keys_mapSet_not_mem m k v hk]
    refine List.Nodup.append h (List.nodup_singleton k) ?_
    intro x hx hx'
    rw [List.mem_singleton] at hx'
    subst hx'
    exact hk hx

theorem mapHas_iff_isSome {α : Type} (m : List (String × α)) (k : String) :
    mapHas m k = true ↔ (mapGet m k).isSome = true := by
  induction m with
  | nil => simp [mapHas, mapGet]
  | cons e rest ih =>
    by_cases h : e.1 = k <;> simp [mapHas, mapGet, h, ih]

theorem mapGet_not_mem {α : Type} (m : List (String × α)) (k : String)
    (h : k ∉ m.map Prod.fst) :
    mapGet m k = none := by
  induction m with
  | nil => rfl
  | cons e rest ih =>
    have he : ¬ (e.1 = k) := fun hh => h (by simp [hh])
    have h' : k ∉ rest.map Prod.fst := fun hh => h (by simp [hh])
    simp [mapGet, he, ih h']

/-- C6: `register` then `get` with the same identifier returns the
most-recently-registered instance; registering a second instance under the
same identifier leaves exactly one entry for it (the second), so `list()`
still contains each registered identifier exactly once and its length is
unchanged by the replacement. -/
theorem register_get_replace (r : Registry) (p q : Provider)
    (hk : (ProviderRegistry.list r).Nodup) (hpq : q.type = p.type) :
    ProviderRegistry.get (ProviderRegistry.register r p) p.type = some p ∧
    ProviderRegistry.get (ProviderRegistry.register (ProviderRegistry.register r p) q) q.type =
      some q ∧
    ProviderRegistry.list (ProviderRegistry.register (ProviderRegistry.register r p) q) =
      ProviderRegistry.list (ProviderRegistry.register r p) ∧
    (ProviderRegistry.list (ProviderRegistry.register r p)).Nodup ∧
    (ProviderRegistry.list (ProviderRegistry.register (ProviderRegistry.register r p) q)).length =
      (ProviderRegistry.list (ProviderRegistry.register r p)).length := by
  have hmem : q.type ∈ ProviderRegistry.list (ProviderRegistry.register r p) := by
    rw [hpq]
    exact mem_keys_mapSet r p.type p
  have hl : ProviderRegistry.list (ProviderRegistry.register (ProviderRegistry.register r p) q) =
      ProviderRegistry.list (ProviderRegistry.register r p) :=
    keys_mapSet_mem _ q.type q hmem
  exact ⟨mapGet_mapSet_self r p.type p, mapGet_mapSet_self _ q.type q, hl,
    nodup_keys_mapSet r p.type p hk, by rw [hl]⟩

theorem register_get_replace_witness :
    ProviderRegistry.get
        (ProviderRegistry.register [] ⟨"openai", "gpt-4", Except.ok true⟩)
        "openai" = some ⟨"openai", "gpt-4", Except.ok true⟩ ∧
    ProviderRegistry.get
        (ProviderRegistry.register
          (ProviderRegistry.register [] ⟨"openai", "gpt-4", Except.ok true⟩)
          ⟨"openai", "gpt-4o", Except.ok true⟩)
        "openai" = some ⟨"openai", "gpt-4o", Except.ok true⟩ ∧
    ProviderRegistry.list
        (ProviderRegistry.register
          (ProviderRegistry.register [] ⟨"openai", "gpt-4", Except.ok true⟩)
          ⟨"openai", "gpt-4o", Except.ok true⟩) = ["openai"] := by
  have h := register_get_replace [] ⟨"openai", "gpt-4", Except.ok true⟩
      ⟨"openai", "gpt-4o", Except.ok true⟩ (by simp [ProviderRegistry.list]) rfl
  exact ⟨h.1, h.2.1, by rw [h.2.2.1]; rfl⟩

/- ## Bulk construction and availability probing -/

/-- The `createDefault` loop over a list of identifiers with pairwise fresh
keys extends the catalog by exactly the identifiers whose constructor
succeeded, in attempt order. -/
theorem createDefault_go (env : Env) (ids : List String) :
    ∀ r : Registry, (∀ i ∈ ids, i ∉ ProviderRegistry.list r) → ids.Nodup →
      ProviderRegistry.list
          (List.foldl
            (fun acc id =>
              match construct env id with
              | some p => ProviderRegistry.register acc p
              | none => acc)
            r ids) =
        ProviderRegistry.list r ++ ids.filter (fun id => (env id).isSome) := by
  induction ids with
  | nil => intro r _ _; simp
  | cons id rest ih =>
    intro r hdisj hnd
    rw [List.foldl_cons]
    cases hc : construct env id with
    | none =>
      have hnone : env id = none := by
        unfold construct at hc
        cases henv : env id
        · rfl
        · rw [henv] at hc; simp at hc
      simp only [hc]
      rw [ih r (fun i hi => hdisj i (List.mem_cons_of_mem id hi)) (List.nodup_cons.mp hnd).2]
      congr 1
      simp [List.filter_cons, hnone]
    | some p =>
      obtain ⟨s, hs, hp⟩ := Option.map_eq_some'.mp (by unfold construct at hc; exact hc)
      have htype : p.type = id := by rw [← hp]
      have hid : id ∉ ProviderRegistry.list r := hdisj id (List.mem_cons_self id rest)
      have hlist : ProviderRegistry.list (ProviderRegistry.register r p) =
          ProviderRegistry.list r ++ [id] := by
        show (mapSet r p.type p).map Prod.fst = r.map Prod.fst ++ [id]
        rw [htype]
        exact keys_mapSet_not_mem r id p hid
      have hdisj' : ∀ i ∈ rest, i ∉ ProviderRegistry.list (ProviderRegistry.register r p) := by
        intro i hi
        rw [hlist]
        simp only [List.mem_append, List.mem_singleton]
        push_neg
        exact ⟨hdisj i (List.mem_cons_of_mem id hi),
          fun h => (List.nodup_cons.mp hnd).1 (h ▸ hi)⟩
      simp only [hc]
      rw [ih (ProviderRegistry.register r p) hdisj' (List.nodup_cons.mp hnd).2, hlist,
        List.append_assoc]
      congr 1
      simp [List.filter_cons, hs]

/-- C7: `createDefault` never raises whatever the per-provider constructors
do — it is a total function of the environment — and the identifiers it
registers are exactly those of the known providers whose construction
succeeded, in attempt order: each attempt is isolated, a failing constructor
only omits its own identifier, and the resulting provider count is at most
the number of known identifiers (four). -/
theorem createDefault_best_effort (env : Env) :
    ProviderRegistry.list (createDefault env) =
      knownIds.filter (fun id => (env id).isSome) ∧
    (ProviderRegistry.list (createDefault env)).length ≤ knownIds.length := by
  have h : ProviderRegistry.list (createDefault env) =
      knownIds.filter (fun id => (env id).isSome) := by
    unfold createDefault
    rw [createDefault_go env knownIds [] (by intro i _ hi; simp [ProviderRegistry.list] at hi)
      (by decide)]
    rfl
  exact ⟨h, by rw [h]; exact List.length_filter_le _ _⟩

/-- The `detectAvailable` loop keeps, in catalog order, exactly the providers
whose validation resolved to `true`. -/
theorem detect_go (ps : List Provider) (acc : List String) :
    List.foldl
        (fun acc p =>
          match p.validateConfig with
          | .ok true => acc ++ [p.type]
          | _ => acc)
        acc ps =
      acc ++ (ps.filter (fun p => decide (p.validateConfig = Except.ok true))).map
        Provider.type := by
  induction ps generalizing acc with
  | nil => simp
  | cons p rest ih =>
    rw [List.foldl_cons]
    cases hv : p.validateConfig with
    | ok b =>
      cases b
      · simp only [hv]
        rw [ih]
        congr 1
        simp [List.filter_cons, hv]
      · simp only [hv]
        rw [ih, List.append_assoc]
        congr 1
        simp [List.filter_cons, hv]
    | error t =>
      simp only [hv]
      rw [ih]
      congr 1
      simp [List.filter_cons, hv]

/-- Entry-preservation for `Map.set`: a property of every stored pair that the
inserted pair also enjoys survives the update. -/
theorem mapSet_entries {α : Type} (P : String × α → Prop) (m : List (String × α))
    (k : String) (v : α) (hm : ∀ e ∈ m, P e) (hkv : P (k, v)) :
    ∀ e ∈ mapSet m k v, P e := by
  induction m with
  | nil =>
    intro e he
    simp only [mapSet, List.mem_singleton] at he
    subst he
    exact hkv
  | cons e0 rest ih =>
    intro e he
    by_cases h : e0.1 = k
    · simp only [mapSet, if_pos h] at he
      rcases List.mem_cons.mp he with h1 | h1
      · subst h1; exact hkv
      · exact hm e (List.mem_cons_of_mem e0 h1)
    · simp only [mapSet, if_neg h] at he
      rcases List.mem_cons.mp he with h1 | h1
      · rw [h1]; exact hm e0 (List.mem_cons_self e0 rest)
      · exact ih (fun e' he' => hm e' (List.mem_cons_of_mem e0 he')) e h1

/-- Every entry of the default registry is stored under its provider's own
type tag. -/
theorem createDefault_entries (env : Env) :
    ∀ e ∈ createDefault env, (e : String × Provider).2.type = e.1 := by
  unfold createDefault
  have go : ∀ (ids : List String) (r : Registry),
      (∀ e ∈ r, (e : String × Provider).2.type = e.1) →
      ∀ e ∈ List.foldl
          (fun acc id =>
            match construct env id with
            | some p => ProviderRegistry.register acc p
            | none => acc)
          r ids, e.2.type = e.1 := by
    intro ids
    induction ids with
    | nil => intro r hr; simpa using hr
    | cons id rest ih =>
      intro r hr
      rw [List.foldl_cons]
      cases hc : construct env id with
      | none => simp only [hc]; exact ih r hr
      | some p =>
        simp only [hc]
        have hreg : ∀ e ∈ ProviderRegistry.register r p,
            (e : String × Provider).2.type = e.1 :=
          mapSet_entries (fun e => (e : String × Provider).2.type = e.1) r p.type p hr rfl
        exact ih (ProviderRegistry.register r p) hreg
  exact go knownIds [] (by intro e he; simp at he)

/-- Keeping then projecting the type of entries whose value satisfies `q`
yields a sublist of the key list, provided every value is stored under its
own type. -/
theorem filter_types_sublist (q : Provider → Bool) :
    ∀ r : Registry, (∀ e ∈ r, (e : String × Provider).2.type = e.1) →
      List.Sublist (((r.map Prod.snd).filter q).map Provider.type) (r.map Prod.fst) := by
  intro r
  induction r with
  | nil => intro _; simp
  | cons e rest ih =>
    intro h
    have he : e.2.type = e.1 := h e (List.mem_cons_self e rest)
    have ih' := ih (fun e' he' => h e' (List.mem_cons_of_mem e he'))
    rw [List.map_cons, List.map_cons, List.filter_cons]
    cases hq : q e.2
    · simpa only [Bool.false_eq_true, if_false] using ih'.cons e.1
    · simp only [if_true, List.map_cons, he]
      exact ih'.cons₂ e.1

/-- C8: for every environment, `detectAvailable` returns, in the default
registry's catalog order, exactly the identifiers of the providers whose
`validateConfig` call resolved to `true` — a validation that rejects or
resolves to `false` merely excludes its provider — so the result is always an
ordered sub-sequence (in particular a subset) of the identifiers registered
by `createDefault`. -/
theorem detectAvailable_subset (env : Env) :
    detectAvailable env =
      ((ProviderRegistry.getAll (createDefault env)).filter
          (fun p => decide (p.validateConfig = Except.ok true))).map Provider.type ∧
    List.Sublist (detectAvailable env) (ProviderRegistry.list (createDefault env)) := by
  have h1 : detectAvailable env =
      ((ProviderRegistry.getAll (createDefault env)).filter
          (fun p => decide (p.validateConfig = Except.ok true))).map Provider.type := by
    unfold detectAvailable
    rw [detect_go]
    rfl
  refine ⟨h1, ?_⟩
  rw [h1]
  exact filter_types_sublist _ (createDefault env) (createDefault_entries env)

/-- C9: the pure lookups are total and report absence explicitly: `has` is
true exactly when `get` finds an instance, `get` on an identifier with no
registered instance returns `none`, and a capability-table lookup for an
identifier outside the closed set `{openai, anthropic, gemini, ollama}`
yields `none` rather than a fabricated default descriptor. -/
theorem lookup_absence (r : Registry) (id : String) :
    (ProviderRegistry.has r id = true ↔ (ProviderRegistry.get r id).isSome = true) ∧
    (id ∉ ProviderRegistry.list r → ProviderRegistry.get r id = none) ∧
    (id ∉ knownIds → capabilityLookup id = none) := by
  refine ⟨mapHas_iff_isSome r id, fun h => mapGet_not_mem r id h, fun h => ?_⟩
  apply mapGet_not_mem
  intro hmem
  apply h
  simpa [PROVIDER_CAPABILITIES, knownIds] using hmem

theorem lookup_absence_witness :
    (ProviderRegistry.has [("openai", ⟨"openai", "gpt-4", Except.ok true⟩)] "mistral" = true ↔
      (ProviderRegistry.get [("openai", ⟨"openai", "gpt-4", Except.ok true⟩)]
        "mistral").isSome = true) ∧
    ProviderRegistry.get [("openai", ⟨"openai", "gpt-4", Except.ok true⟩)] "mistral" = none ∧
    capabilityLookup "mistral" = none := by
  have h := lookup_absence [("openai", ⟨"openai", "gpt-4", Except.ok true⟩)] "mistral"
  exact ⟨h.1, h.2.1 (by decide), h.2.2 (by decide)⟩

end Prive
